import Mathlib

/-!
Shallow embedding of the go-maquina finite-state-machine engine.

States form a pointer graph on the Go heap; here the heap is explicit: a list
of `State` records addressed by label (the source compares states with
`statesEqual`, which is label equality, so labels are the natural addresses).
Side-effecting callbacks are opaque labelled values; executing a transition
produces a trace of `Event`s recording which callbacks ran, in order, instead
of running arbitrary Go code.  A `context.Context` is modelled by the value
its `Err()` method returns for the duration of the call (`none` = not
cancelled).  Functions that in Go recurse along parent pointers or across the
transition graph take a fuel argument; theorems are stated at sufficient fuel.
-/

namespace Maquina

abbrev Label := String

abbrev Trigger := String

/-- Context is modelled by the result of its Err() method: `none` when the
context is live, `some e` when it has been cancelled with error text `e`. -/
abbrev Ctx := Option String

/-- triggerWildcard is the reserved trigger that matches any trigger when
deciding whether a callback should run (maquina.go). -/
def triggerWildcard : Trigger := "*"

/-- triggersEqual checks if a trigger equals another trigger or the wildcard
(maquina.go). -/
def triggersEqual (a b : Trigger) : Bool :=
  a == b || a == triggerWildcard || b == triggerWildcard

/-- GuardClause: a labelled predicate over context and input; `none` means the
guard permits, `some e` that it denies with reason `e` (maquina.go). -/
structure GuardClause (T : Type) where
  label : String
  guard : Ctx → T → Option String

/-- FringeCallback: a labelled side-effecting callback; only its label is
needed since execution is recorded as a trace event (maquina.go). -/
structure FringeCallback where
  label : String
deriving DecidableEq

/-- triggeredFunc pairs a scope trigger with a fringe callback (maquina.go). -/
structure triggeredFunc where
  t : Trigger
  f : FringeCallback
deriving DecidableEq

/-- Transition: source and destination state (by label, since `statesEqual`
compares labels), trigger, and ordered guard clauses (maquina.go).  The Go
`Src` field is a pointer that is nil for machine-global always-permitted
transitions; that nil is modelled by `nilLabel`. -/
structure Transition (T : Type) where
  Src : Label
  Dst : Label
  trigger : Trigger
  guards : List (GuardClause T)

/-- nilLabel stands for a nil `*State` pointer.  `NewState` rejects the empty
label, so no real state can collide with it. -/
def nilLabel : Label := ""

/-- State: the heap node of state.go — label, outgoing transitions,
exit/entry/reentry callback lists and the optional parent link. -/
structure State (T : Type) where
  label : Label
  transitions : List (Transition T)
  exitFuncs : List triggeredFunc
  entryFuncs : List triggeredFunc
  reentryFuncs : List triggeredFunc
  parent : Option Label

/-- Heap: the explicit store of states, addressed by label. -/
abbrev Heap (T : Type) := List (State T)

variable {T : Type}

/-- findState dereferences a state label on the heap (first state carrying the
label; the source documents duplicate labels as undefined behaviour). -/
def findState (h : Heap T) (l : Label) : Option (State T) :=
  h.find? (fun s => s.label == l)

/-- updateState rewrites the state stored at a label, modelling in-place
mutation through a Go pointer. -/
def updateState (h : Heap T) (l : Label) (g : State T → State T) : Heap T :=
  h.map (fun s => if s.label == l then g s else s)

/-- parentOf reads the parent pointer of the state at a label. -/
def parentOf (h : Heap T) (l : Label) : Option Label :=
  match findState h l with
  | none => none
  | some s => s.parent

/-- statesEqual compares two states by label (maquina.go). -/
def statesEqual (a b : Label) : Bool := a == b

/-- getTransition returns the first transition of the state registered for the
exact trigger (maquina.go). -/
def getTransition (s : State T) (t : Trigger) : Option (Transition T) :=
  s.transitions.find? (fun tr => t == tr.trigger)

/-- hasTransition reports whether a state has a transition for the exact
trigger (state.go). -/
def State.hasTransition (s : State T) (t : Trigger) : Bool :=
  s.transitions.any (fun tr => tr.trigger == t)

/-- hasTransitionAt is `hasTransition` through a heap lookup. -/
def hasTransitionAt (h : Heap T) (l : Label) (t : Trigger) : Bool :=
  match findState h l with
  | none => false
  | some s => s.hasTransition t

/-- IsSubstateOf walks the receiver's parent chain looking for `maybeParent`,
comparing by label; a state is a substate of itself (state.go).  Fuel bounds
the chain walk, which in Go terminates because `LinkSubstates` rejects
cycles. -/
def IsSubstateOf (h : Heap T) : Nat → Label → Label → Bool
  | 0, _, _ => false
  | fuel+1, s, maybeParent =>
    if statesEqual s maybeParent then true
    else
      match findState h s with
      | none => false
      | some st =>
        match st.parent with
        | none => false
        | some p => IsSubstateOf h fuel p maybeParent

/-- Modelled from the spec: `State.Contains` is called by `exit` and `enter`
in maquina.go but its definition is not among the provided sources.  Per the
spec's hierarchical propagation rules, a state contains another exactly when
the latter is the state itself or one of its transitive substates, i.e.
`s.Contains(x) = x.IsSubstateOf(s)`. -/
def Contains (h : Heap T) (fuel : Nat) (s x : Label) : Bool :=
  IsSubstateOf h fuel x s

/-- Event records one observable step of a Fire call: a fringe callback
invocation, a machine-level hook invocation, or the current-state update. -/
inductive Event where
  | exitCb (state : Label) (cb : String)
  | entryCb (state : Label) (cb : String)
  | reentryCb (state : Label) (cb : String)
  | fringeHook (cb : String)
  | transitioningHook (src dst : Label) (t : Trigger)
  | transitionedHook (src dst : Label) (t : Trigger)
  | stateSet (dst : Label)
deriving DecidableEq

/-- isCallback is true for entry, exit and reentry callback events. -/
def Event.isCallback : Event → Bool
  | .exitCb _ _ => true
  | .entryCb _ _ => true
  | .reentryCb _ _ => true
  | _ => false

/-- isEntryOrExit is true for entry and exit callback events only. -/
def Event.isEntryOrExit : Event → Bool
  | .exitCb _ _ => true
  | .entryCb _ _ => true
  | _ => false

/-- stateTag returns the state a callback event belongs to. -/
def Event.stateTag : Event → Option Label
  | .exitCb s _ => some s
  | .entryCb s _ => some s
  | .reentryCb s _ => some s
  | _ => none

/-- fringeRun models the callback loops of `exit`, `enter` and `reenter`
(maquina.go): every registered callback whose scope trigger matches the fired
trigger (or wildcard) runs in registration order, preceded by the machine's
onFringe hook when that is set. -/
def fringeRun (onFringe : Bool) (mk : String → Event) (t : Trigger)
    (funcs : List triggeredFunc) : List Event :=
  (funcs.filter (fun tf => triggersEqual tf.t t)).flatMap
    (fun tf => (if onFringe then [Event.fringeHook tf.f.label] else []) ++ [mk tf.f.label])

/-- reenter runs the destination state's matching reentry callbacks
(maquina.go). -/
def reenter (h : Heap T) (onFringe : Bool) (tr : Transition T) : List Event :=
  match findState h tr.Dst with
  | none => []
  | some s => fringeRun onFringe (Event.reentryCb tr.Dst) tr.trigger s.reentryFuncs

/-- exit runs the source state's matching exit callbacks and recurses up the
parent chain while the parent does not contain the destination; it does
nothing when moving into a substate of the source (maquina.go). -/
def exit (h : Heap T) (onFringe : Bool) : Nat → Transition T → List Event
  | 0, _ => []
  | fuel+1, tr =>
    if (parentOf h tr.Dst).isSome && Contains h fuel tr.Src tr.Dst then []
    else
      match findState h tr.Src with
      | none => []
      | some s =>
        let evs := fringeRun onFringe (Event.exitCb tr.Src) tr.trigger s.exitFuncs
        match s.parent with
        | none => evs
        | some p =>
          if Contains h fuel p tr.Dst then evs
          else evs ++ exit h onFringe fuel { tr with Src := p }

/-- enter runs the destination's ancestors' then the destination's matching
entry callbacks, skipping ancestors that contain the source; it does nothing
when moving out of a substate of the destination (maquina.go). -/
def enter (h : Heap T) (onFringe : Bool) : Nat → Transition T → List Event
  | 0, _ => []
  | fuel+1, tr =>
    if (parentOf h tr.Src).isSome && Contains h fuel tr.Dst tr.Src then []
    else
      let pre :=
        match parentOf h tr.Dst with
        | none => []
        | some p =>
          if Contains h fuel p tr.Src then []
          else enter h onFringe fuel { tr with Dst := p }
      let own :=
        match findState h tr.Dst with
        | none => []
        | some s => fringeRun onFringe (Event.entryCb tr.Dst) tr.trigger s.entryFuncs
      pre ++ own

/-- FireError: the error values a Fire call can return — a wrapped guard
failure (`GuardClauseError`), a cancelled context's error, or an error
reported by the on-unhandled-trigger hook. -/
inductive FireError where
  | guardClause (label : String) (err : String)
  | ctxDone (err : String)
  | hookReported (err : String)
deriving DecidableEq

/-- guardLoop is the body of `Transition.isPermitted` (maquina.go): run each
guard in registration order; a failing guard returns a GuardClauseError with
its label; after each successful guard the context is checked and a cancelled
context's error is returned. -/
def guardLoop (gs : List (GuardClause T)) (ctx : Ctx) (inp : T) : Option FireError :=
  match gs with
  | [] => none
  | g :: rest =>
    match g.guard ctx inp with
    | some e => some (FireError.guardClause g.label e)
    | none =>
      match ctx with
      | some ce => some (FireError.ctxDone ce)
      | none => guardLoop rest ctx inp

/-- isPermitted evaluates the transition's guards (maquina.go). -/
def isPermitted (tr : Transition T) (ctx : Ctx) (inp : T) : Option FireError :=
  guardLoop tr.guards ctx inp

/-- firstFailure returns label and reason of the first denying guard in
registration order, ignoring the context (specification-side helper used to
state theorems about guard evaluation order). -/
def firstFailure (gs : List (GuardClause T)) (ctx : Ctx) (inp : T) : Option (String × String) :=
  match gs with
  | [] => none
  | g :: rest =>
    match g.guard ctx inp with
    | some e => some (g.label, e)
    | none => firstFailure rest ctx inp

/-- fire is `StateMachine.fire` (maquina.go): evaluate guards; on denial
return the error, else run reentry callbacks for a self-transition or exit
then entry propagation otherwise, returning the callback trace. -/
def fire (h : Heap T) (onFringe : Bool) (fuel : Nat) (ctx : Ctx) (tr : Transition T)
    (inp : T) : Except FireError (List Event) :=
  match isPermitted tr ctx inp with
  | some e => Except.error e
  | none =>
    if statesEqual tr.Src tr.Dst then Except.ok (reenter h onFringe tr)
    else Except.ok (exit h onFringe fuel tr ++ enter h onFringe fuel tr)

/-- StateMachine (statemachine.go): current state, machine-global
always-permitted transitions and the optional hooks.  Hooks that only observe
are modelled by presence flags; the unhandled-trigger hook returns an optional
error. -/
structure StateMachine (T : Type) where
  heap : Heap T
  actual : Label
  alwaysPermitted : List (Transition T)
  onUnhandledTrigger : Option (Label → Trigger → Option String)
  onTransitioning : Bool
  onTransitioned : Bool
  onFringe : Bool

/-- lastAlwaysMatch mirrors the fallback loop in `Fire` (statemachine.go):
every matching always-permitted transition overwrites the candidate, so the
last registered match wins. -/
def lastAlwaysMatch (l : List (Transition T)) (t : Trigger) : Option (Transition T) :=
  l.foldl (fun acc tr => if t == tr.trigger then some tr else acc) none

/-- currentTransition is the transition lookup of `Fire` (statemachine.go):
the current state's own transition for the trigger, else the always-permitted
fallback. -/
def currentTransition (sm : StateMachine T) (t : Trigger) : Option (Transition T) :=
  match (findState sm.heap sm.actual).bind (fun s => getTransition s t) with
  | some tr => some tr
  | none => lastAlwaysMatch sm.alwaysPermitted t

/-- FireOutcome: a Fire call returns nil, returns an error, or panics. -/
inductive FireOutcome where
  | ok
  | failed (e : FireError)
  | fatal (msg : String)
deriving DecidableEq

/-- hookOutcome converts the unhandled-trigger hook's returned error into the
outcome `Fire` propagates. -/
def hookOutcome : Option String → FireOutcome
  | none => FireOutcome.ok
  | some e => FireOutcome.failed (FireError.hookReported e)

/-- FireResult: outcome, the machine's current state after the call, and the
ordered trace of observable events during the call. -/
structure FireResult where
  outcome : FireOutcome
  actual : Label
  events : List Event
deriving DecidableEq

/-- fireResult is the tail of `Fire` (statemachine.go) once a transition has
been located: invoke the on-transitioning hook, dispatch the transition to
`fire`, and on success invoke the on-transitioned hook and then set the
current state to the destination. -/
def fireResult (sm : StateMachine T) (fuel : Nat) (ctx : Ctx) (tr : Transition T)
    (inp : T) : FireResult :=
  let evs0 :=
    if sm.onTransitioning then [Event.transitioningHook tr.Src tr.Dst tr.trigger] else []
  match fire sm.heap sm.onFringe fuel ctx tr inp with
  | Except.error e =>
    { outcome := FireOutcome.failed e, actual := sm.actual, events := evs0 }
  | Except.ok trace =>
    let evs1 :=
      if sm.onTransitioned then [Event.transitionedHook tr.Src tr.Dst tr.trigger] else []
    { outcome := FireOutcome.ok, actual := tr.Dst,
      events := evs0 ++ trace ++ evs1 ++ [Event.stateSet tr.Dst] }

/-- Fire (statemachine.go): reject the wildcard trigger; locate the transition
on the current state or the always-permitted list; with no transition invoke
the unhandled-trigger hook or panic; otherwise hand the located transition to
`fireResult`.  The firing step dispatches the located transition to `fire`
per maquina.go's `StateMachine.fire`; for a transition found on the current
state this coincides with re-resolving the trigger on that state, since
`getTransition` returns the first match both times. -/
def Fire (sm : StateMachine T) (fuel : Nat) (ctx : Ctx) (t : Trigger) (inp : T) : FireResult :=
  if t == triggerWildcard then
    { outcome := FireOutcome.fatal "cannot fire wildcard trigger",
      actual := sm.actual, events := [] }
  else
    match currentTransition sm t with
    | none =>
      match sm.onUnhandledTrigger with
      | some hook =>
        { outcome := hookOutcome (hook sm.actual t), actual := sm.actual, events := [] }
      | none =>
        { outcome := FireOutcome.fatal "trigger not handled", actual := sm.actual, events := [] }
    | some tr => fireResult sm fuel ctx tr inp

/-- LinkSubstates (state.go): link each argument state as a substate of `s`,
stopping with an error at the first argument that is absent, already has a
parent, or whose adoption would create a referential cycle.  Returns the heap
(mutated up to the failing argument) together with the optional error. -/
def LinkSubstates (h : Heap T) (fuel : Nat) (s : Label) :
    List Label → Heap T × Option String
  | [] => (h, none)
  | b :: rest =>
    match findState h b with
    | none => (h, some "cannot link nil state")
    | some sb =>
      if sb.parent.isSome then (h, some "state already has parent")
      else if IsSubstateOf h fuel s b then (h, some "would cause a referential cycle")
      else
        LinkSubstates (updateState h b (fun st => { st with parent := some s })) fuel s rest

/-- discover models the first loop of `walkStatesInternal` (maquina.go): walk
the transitions in order, and for each destination not yet visited, mark it,
report it, and queue it.  Returns the reported labels in order together with
the grown visited set. -/
def discover : List Label → List (Transition T) → List Label × List Label
  | visited, [] => ([], visited)
  | visited, tr :: rest =>
    if tr.Dst ∈ visited then discover visited rest
    else
      let d := discover (tr.Dst :: visited) rest
      (tr.Dst :: d.1, d.2)

/-- walkStatesList runs a walk step over a queue of newly discovered states,
threading the visited set (the second loop of maquina.go's
`walkStatesInternal`, abstracted over the recursive step so the whole walk is
structurally recursive on fuel). -/
def walkStatesList (step : Label → List Label → List Label × List Label) :
    List Label → List Label → List Label × List Label
  | [], visited => ([], visited)
  | dst :: rest, visited =>
    let a := step dst visited
    let b := walkStatesList step rest a.2
    (a.1 ++ b.1, b.2)

/-- walkStatesInternal (maquina.go): report every unvisited destination of the
source's transitions in order (the first loop), then recurse into each newly
discovered state (the second loop).  Returns the reported labels in order
together with the visited set.  The source's structural-corruption panic (a
transition whose recorded source differs from its owning state) is not
modelled; theorems assume well-formed heaps, which the construction API
maintains. -/
def walkStatesInternal (h : Heap T) : Nat → Label → List Label → List Label × List Label
  | 0, _, visited => ([], visited)
  | f+1, src, visited =>
    match findState h src with
    | none => ([], visited)
    | some s =>
      let d := discover visited s.transitions
      let r := walkStatesList (walkStatesInternal h f) d.1 d.2
      (d.1 ++ r.1, r.2)

/-- WalkStates (maquina.go): depth-first traversal of all distinct states
reachable from `start`, returning the visit order; the start state is marked
and reported first.  The visitor is modelled as total (no early abort), which
is the case the visit-once guarantees are about. -/
def WalkStates (h : Heap T) (fuel : Nat) (start : Label) : List Label :=
  start :: (walkStatesInternal h fuel start [start]).1

/-- walkTransitionsList: for each transition of a state, report it and then
recurse into its destination (via the supplied step) before moving to the
next transition. -/
def walkTransitionsList (step : Label → List Label → List (Transition T) × List Label) :
    List (Transition T) → List Label → List (Transition T) × List Label
  | [], visited => ([], visited)
  | tr :: rest, visited =>
    let a := step tr.Dst visited
    let b := walkTransitionsList step rest a.2
    (tr :: (a.1 ++ b.1), b.2)

/-- walkTransitions models the transition walk (`walkStateTransitions`):
skip an already-visited source, else mark it and hand its transitions to the
per-transition loop.  Returns the sequence of transitions the walk callback
is invoked on, in order. -/
def walkTransitions (h : Heap T) : Nat → Label → List Label → List (Transition T) × List Label
  | 0, _, visited => ([], visited)
  | f+1, src, visited =>
    if src ∈ visited then ([], visited)
    else
      match findState h src with
      | none => ([], src :: visited)
      | some s => walkTransitionsList (walkTransitions h f) s.transitions (src :: visited)

/-- walkStateTransitions (the transition walk used by `AlwaysPermit`): the
ordered sequence of transitions reported by a walk starting at `start`. -/
def walkStateTransitions (h : Heap T) (fuel : Nat) (start : Label) : List (Transition T) :=
  (walkTransitions h fuel start []).1

/-- findLacking locates the state the `AlwaysPermit` walk callback augments:
the callback checks each reported transition's source and then its
destination for the trigger, appends the synthesized transition to the first
state found lacking it, and aborts the walk with `errExitWalk`
(statemachine.go).  Because the walk stops at the moment of that single
mutation, locating the state first over the unmutated heap is equivalent. -/
def findLacking (h : Heap T) (fuel : Nat) (start : Label) (trigger : Trigger) : Option Label :=
  (walkStateTransitions h fuel start).findSome? (fun tr =>
    if !(hasTransitionAt h tr.Src trigger) then some tr.Src
    else if !(hasTransitionAt h tr.Dst trigger) then some tr.Dst
    else none)

/-- AlwaysPermit (statemachine.go): reject the wildcard trigger (`none`
models the panic); append the synthesized transition to the first walked
state lacking the trigger, if any; and record the transition machine-globally
(with a nil source) for the fire-time fallback. -/
def AlwaysPermit (sm : StateMachine T) (fuel : Nat) (trigger : Trigger) (dst : Label)
    (guards : List (GuardClause T)) : Option (StateMachine T) :=
  if trigger == triggerWildcard then none
  else
    let transition : Transition T :=
      { Src := nilLabel, Dst := dst, trigger := trigger, guards := guards }
    let h' :=
      match findLacking sm.heap fuel sm.actual trigger with
      | none => sm.heap
      | some l =>
        updateState sm.heap l
          (fun s => { s with transitions := s.transitions ++ [{ transition with Src := l }] })
    some { sm with heap := h', alwaysPermitted := sm.alwaysPermitted ++ [transition] }

/-- hyperState: one node of a fully interconnected graph over the given
labels — a transition to every other label, each ordered pair with its own
trigger, no guards, no callbacks, no hierarchy. -/
def hyperState (ls : List Label) (l : Label) : State Unit :=
  { label := l,
    transitions :=
      (ls.filter (fun m => m != l)).map
        (fun m => { Src := l, Dst := m, trigger := l ++ "->" ++ m, guards := [] }),
    exitFuncs := [], entryFuncs := [], reentryFuncs := [], parent := none }

/-- hyperHeap: the fully interconnected ("hyper-connected") state graph over
the given labels. -/
def hyperHeap (ls : List Label) : Heap Unit :=
  ls.map (hyperState ls)

/-- eventIdx: index of the first occurrence of an event in a trace (length of
the trace when absent). -/
def eventIdx (evs : List Event) (e : Event) : Nat :=
  (evs.takeWhile (fun x => x != e)).length

/-- walkInv: the invariant of the state walk — the reported labels are
distinct, none was already visited, and the resulting visited set is exactly
the old one plus the reported labels. -/
def walkInv (v : List Label) (r : List Label × List Label) : Prop :=
  r.1.Nodup ∧ (∀ l ∈ r.1, l ∉ v) ∧ (∀ l, l ∈ r.2 ↔ l ∈ r.1 ∨ l ∈ v)

/-- heapSucc: the destination labels of a state's outgoing transitions. -/
def heapSucc (h : Heap T) (l : Label) : List Label :=
  match findState h l with
  | none => []
  | some s => s.transitions.map (fun tr => tr.Dst)

/-- stepsTo: the edge relation of the state graph. -/
def stepsTo (h : Heap T) (a b : Label) : Prop := b ∈ heapSucc h a

/-- Reaches: a state is reachable when a chain of transitions leads to it. -/
def Reaches (h : Heap T) : Label → Label → Prop := Relation.ReflTransGen (stepsTo h)

/-- labelUniverse: every label the walk can ever mark — the states' own
labels and all transition destinations. -/
def labelUniverse (h : Heap T) : List Label :=
  h.flatMap (fun s => s.label :: s.transitions.map (fun tr => tr.Dst))

/-- unseenCount: how many universe labels (with multiplicity) are not yet in
the visited set; the walk's fuel must exceed this for a complete traversal. -/
def unseenCount (h : Heap T) (v : List Label) : Nat :=
  ((labelUniverse h).filter (fun l => decide (l ∉ v))).length

/-- succClosed: every listed label has all its transition destinations inside
the visited set. -/
def succClosed (h : Heap T) (dom v : List Label) : Prop :=
  ∀ l ∈ dom, ∀ m ∈ heapSucc h l, m ∈ v

/-! Concrete machines used to instantiate the theorems: the README toll booth,
a self-transition machine, a plain two-state machine, a chain for
`AlwaysPermit`, a four-level hierarchy, and a substate pair. -/

def gPay : GuardClause Nat :=
  { label := "pay-enough", guard := fun _ inp => if inp < 10 then some "underpaid" else none }

def tollPayTr : Transition Nat :=
  { Src := "closed", Dst := "open", trigger := "pay", guards := [gPay] }

def tollAdvanceTr : Transition Nat :=
  { Src := "open", Dst := "closed", trigger := "advance", guards := [] }

def tollClosed : State Nat :=
  { label := "closed", transitions := [tollPayTr],
    exitFuncs := [{ t := triggerWildcard, f := { label := "closedExit" } }],
    entryFuncs := [], reentryFuncs := [], parent := none }

def tollOpen : State Nat :=
  { label := "open", transitions := [tollAdvanceTr], exitFuncs := [],
    entryFuncs := [{ t := triggerWildcard, f := { label := "openEntry" } }],
    reentryFuncs := [], parent := none }

def tollSM : StateMachine Nat :=
  { heap := [tollClosed, tollOpen], actual := "closed", alwaysPermitted := [],
    onUnhandledTrigger := none, onTransitioning := true, onTransitioned := true,
    onFringe := false }

def idleStopTr : Transition Nat :=
  { Src := "idle", Dst := "idle", trigger := "stop", guards := [] }

def idleState : State Nat :=
  { label := "idle", transitions := [idleStopTr],
    exitFuncs := [{ t := triggerWildcard, f := { label := "idleExit" } }],
    entryFuncs := [{ t := triggerWildcard, f := { label := "idleEntry" } }],
    reentryFuncs :=
      [{ t := triggerWildcard, f := { label := "reentryAll" } },
       { t := "stop", f := { label := "reentryStop" } },
       { t := "other", f := { label := "reentryOther" } }],
    parent := none }

def idleSM : StateMachine Nat :=
  { heap := [idleState], actual := "idle", alwaysPermitted := [],
    onUnhandledTrigger := none, onTransitioning := false, onTransitioned := false,
    onFringe := false }

def goTr : Transition Nat := { Src := "x", Dst := "y", trigger := "go", guards := [] }

def stX : State Nat :=
  { label := "x", transitions := [goTr], exitFuncs := [], entryFuncs := [],
    reentryFuncs := [], parent := none }

def stY : State Nat :=
  { label := "y", transitions := [], exitFuncs := [],
    entryFuncs := [{ t := triggerWildcard, f := { label := "yEntry" } }],
    reentryFuncs := [], parent := none }

def plainSM : StateMachine Nat :=
  { heap := [stX, stY], actual := "x", alwaysPermitted := [],
    onUnhandledTrigger := none, onTransitioning := false, onTransitioned := true,
    onFringe := false }

def hookSM : StateMachine Nat :=
  { plainSM with
    actual := "y"
    onUnhandledTrigger := some (fun l t => some ("trigger " ++ t ++ " not handled for state " ++ l)) }

def noHookSM : StateMachine Nat := { plainSM with actual := "y" }

def stepTr : Transition Nat := { Src := "a", Dst := "b", trigger := "step", guards := [] }

def chainA : State Nat :=
  { label := "a", transitions := [stepTr], exitFuncs := [], entryFuncs := [],
    reentryFuncs := [], parent := none }

def chainB : State Nat :=
  { label := "b", transitions := [], exitFuncs := [], entryFuncs := [],
    reentryFuncs := [], parent := none }

def fallbackF : State Nat :=
  { label := "f", transitions := [], exitFuncs := [], entryFuncs := [],
    reentryFuncs := [], parent := none }

def chainSM : StateMachine Nat :=
  { heap := [chainA, chainB, fallbackF], actual := "a", alwaysPermitted := [],
    onUnhandledTrigger := none, onTransitioning := false, onTransitioned := false,
    onFringe := false }

def chainSMAug : StateMachine Nat :=
  { chainSM with
    heap :=
      updateState chainSM.heap "a"
        (fun s => { s with transitions :=
          s.transitions ++ [{ Src := "a", Dst := "f", trigger := "fb", guards := [] }] }),
    alwaysPermitted := [{ Src := nilLabel, Dst := "f", trigger := "fb", guards := [] }] }

def hierA : State Nat :=
  { label := "a", transitions := [],
    exitFuncs := [{ t := triggerWildcard, f := { label := "aExit" } }],
    entryFuncs := [{ t := triggerWildcard, f := { label := "aEntry" } }],
    reentryFuncs := [], parent := some "p" }

def hierB : State Nat :=
  { label := "b", transitions := [],
    exitFuncs := [{ t := triggerWildcard, f := { label := "bExit" } }],
    entryFuncs := [{ t := triggerWildcard, f := { label := "bEntry" } }],
    reentryFuncs := [], parent := some "p" }

def hierP : State Nat :=
  { label := "p", transitions := [],
    exitFuncs := [{ t := triggerWildcard, f := { label := "pExit" } }],
    entryFuncs := [{ t := triggerWildcard, f := { label := "pEntry" } }],
    reentryFuncs := [], parent := some "q" }

def hierQ : State Nat :=
  { label := "q", transitions := [],
    exitFuncs := [{ t := triggerWildcard, f := { label := "qExit" } }],
    entryFuncs := [{ t := triggerWildcard, f := { label := "qEntry" } }],
    reentryFuncs := [], parent := none }

def hierC : State Nat :=
  { label := "c", transitions := [], exitFuncs := [],
    entryFuncs := [{ t := triggerWildcard, f := { label := "cEntry" } }],
    reentryFuncs := [], parent := none }

def hierHeap : Heap Nat := [hierA, hierB, hierP, hierQ, hierC]

def cycX : State Nat :=
  { label := "cx", transitions := [], exitFuncs := [], entryFuncs := [],
    reentryFuncs := [], parent := some "cy" }

def cycY : State Nat :=
  { label := "cy", transitions := [], exitFuncs := [], entryFuncs := [],
    reentryFuncs := [], parent := none }

def cycHeap : Heap Nat := [cycX, cycY]

/-! Theorems.  Helper lemmas come first, then one theorem per specification
claim, each with a witness instantiation when it carries hypotheses. -/

theorem guardLoop_none_eq {T : Type} (gs : List (GuardClause T)) (inp : T) :
    guardLoop gs none inp
      = (firstFailure gs none inp).map (fun p => FireError.guardClause p.1 p.2) := by
  induction gs with
  | nil => rfl
  | cons g rest ih =>
    simp only [guardLoop, firstFailure]
    cases g.guard none inp with
    | some e => rfl
    | none => simpa using ih

/-- C6: guard clauses are evaluated in registration order with a cancellation
check interleaved after each guard.  With a live context the result is the
first denying guard's failure wrapped with that guard's label (none if all
permit).  With a cancelled context, a failure of the first guard is still
reported as that guard's failure, while if the first guard permits the
cancellation is surfaced instead of any later guard's failure. -/
theorem isPermitted_interleaves_guards_and_cancellation :
    (∀ (T : Type) (tr : Transition T) (inp : T),
      isPermitted tr none inp
        = (firstFailure tr.guards none inp).map (fun p => FireError.guardClause p.1 p.2))
    ∧ (∀ (T : Type) (tr : Transition T) (c : String) (inp : T),
      isPermitted tr (some c) inp
        = match tr.guards with
          | [] => none
          | g :: _ =>
            match g.guard (some c) inp with
            | some e => some (FireError.guardClause g.label e)
            | none => some (FireError.ctxDone c)) := by
  constructor
  · intro T tr inp
    exact guardLoop_none_eq tr.guards inp
  · intro T tr c inp
    show guardLoop tr.guards (some c) inp = _
    cases tr.guards with
    | nil => rfl
    | cons g rest =>
      cases hg : g.guard (some c) inp <;> simp [guardLoop, hg]

theorem Fire_found {T : Type} (sm : StateMachine T) (fuel : Nat) (ctx : Ctx)
    (t : Trigger) (inp : T) (tr : Transition T)
    (hw : (t == triggerWildcard) = false)
    (hcur : currentTransition sm t = some tr) :
    Fire sm fuel ctx t inp = fireResult sm fuel ctx tr inp := by
  unfold Fire
  rw [hw, hcur]
  rfl

theorem Fire_found_error {T : Type} (sm : StateMachine T) (fuel : Nat) (ctx : Ctx)
    (t : Trigger) (inp : T) (tr : Transition T) (e : FireError)
    (hw : (t == triggerWildcard) = false)
    (hcur : currentTransition sm t = some tr)
    (hf : fire sm.heap sm.onFringe fuel ctx tr inp = Except.error e) :
    Fire sm fuel ctx t inp =
      { outcome := FireOutcome.failed e, actual := sm.actual,
        events := if sm.onTransitioning
          then [Event.transitioningHook tr.Src tr.Dst tr.trigger] else [] } := by
  rw [Fire_found sm fuel ctx t inp tr hw hcur]
  simp only [fireResult, hf]

theorem Fire_found_ok {T : Type} (sm : StateMachine T) (fuel : Nat) (ctx : Ctx)
    (t : Trigger) (inp : T) (tr : Transition T) (trace : List Event)
    (hw : (t == triggerWildcard) = false)
    (hcur : currentTransition sm t = some tr)
    (hf : fire sm.heap sm.onFringe fuel ctx tr inp = Except.ok trace) :
    Fire sm fuel ctx t inp =
      { outcome := FireOutcome.ok, actual := tr.Dst,
        events := (if sm.onTransitioning
            then [Event.transitioningHook tr.Src tr.Dst tr.trigger] else [])
          ++ trace
          ++ (if sm.onTransitioned
            then [Event.transitionedHook tr.Src tr.Dst tr.trigger] else [])
          ++ [Event.stateSet tr.Dst] } := by
  rw [Fire_found sm fuel ctx t inp tr hw hcur]
  simp only [fireResult, hf]

/-- C1: when a guard of the transition located for the trigger denies (the
first denying guard in order having label gl and underlying reason ge) and
the context is live, Fire returns the GuardClauseError carrying that label
and reason, leaves the current state pointer unchanged, and invokes no
entry, exit or reentry callback. -/
theorem Fire_guard_denial_is_noop {T : Type} (sm : StateMachine T) (fuel : Nat)
    (t : Trigger) (inp : T) (S : State T) (tr : Transition T) (gl ge : String)
    (hw : (t == triggerWildcard) = false)
    (hS : findState sm.heap sm.actual = some S)
    (htr : getTransition S t = some tr)
    (hfail : firstFailure tr.guards none inp = some (gl, ge)) :
    Fire sm fuel none t inp =
      { outcome := FireOutcome.failed (FireError.guardClause gl ge),
        actual := sm.actual,
        events := if sm.onTransitioning
          then [Event.transitioningHook tr.Src tr.Dst tr.trigger] else [] }
    ∧ ∀ e ∈ (Fire sm fuel none t inp).events, e.isCallback = false := by
  have hperm : isPermitted tr none inp = some (FireError.guardClause gl ge) := by
    show guardLoop tr.guards none inp = _
    rw [guardLoop_none_eq, hfail]
    rfl
  have hcur : currentTransition sm t = some tr := by
    unfold currentTransition
    rw [hS]
    simp [htr]
  have hf : fire sm.heap sm.onFringe fuel none tr inp
      = Except.error (FireError.guardClause gl ge) := by
    unfold fire
    rw [hperm]
  have hmain := Fire_found_error sm fuel none t inp tr
    (FireError.guardClause gl ge) hw hcur hf
  refine ⟨hmain, ?_⟩
  intro e he
  rw [hmain] at he
  cases hb : sm.onTransitioning <;> rw [hb] at he
  · simp at he
  · simp at he
    rw [he]
    rfl

theorem Fire_guard_denial_is_noop_witness :
    Fire tollSM 5 none "pay" 5 =
      { outcome := FireOutcome.failed (FireError.guardClause "pay-enough" "underpaid"),
        actual := "closed",
        events := [Event.transitioningHook "closed" "open" "pay"] }
    ∧ ∀ e ∈ (Fire tollSM 5 none "pay" 5).events, e.isCallback = false := by
  have h := Fire_guard_denial_is_noop tollSM 5 "pay" 5 tollClosed tollPayTr
    "pay-enough" "underpaid" (by decide) rfl rfl rfl
  exact ⟨h.1, h.2⟩

theorem mem_flag_list {α : Type} {b : Bool} {y x : α} (h : x ∈ (if b then [y] else [])) :
    x = y := by
  cases b
  · simp at h
  · simpa using h

theorem fringeRun_mem {onFr : Bool} {mk : String → Event} {t : Trigger}
    {funcs : List triggeredFunc} {e : Event} (he : e ∈ fringeRun onFr mk t funcs) :
    (∃ l, e = Event.fringeHook l) ∨ ∃ l, e = mk l := by
  unfold fringeRun at he
  rw [List.mem_flatMap] at he
  obtain ⟨tf, _, hmem⟩ := he
  cases onFr
  · simp at hmem
    exact Or.inr ⟨tf.f.label, hmem⟩
  · simp at hmem
    rcases hmem with h | h
    · exact Or.inl ⟨tf.f.label, h⟩
    · exact Or.inr ⟨tf.f.label, h⟩

/-- C2: a permitted self-transition runs exactly the destination state's
reentry callbacks whose scope trigger equals the fired trigger or the
wildcard, in registration order, runs no exit or entry callbacks, and leaves
the machine's current state at the same label as before. -/
theorem Fire_reentry_runs_only_reentry_callbacks {T : Type} (sm : StateMachine T)
    (fuel : Nat) (ctx : Ctx) (t : Trigger) (inp : T) (S : State T) (tr : Transition T)
    (hw : (t == triggerWildcard) = false)
    (hS : findState sm.heap sm.actual = some S)
    (htr : getTransition S t = some tr)
    (hsrc : tr.Src = sm.actual)
    (hself : tr.Src = tr.Dst)
    (hperm : isPermitted tr ctx inp = none) :
    Fire sm fuel ctx t inp =
      { outcome := FireOutcome.ok, actual := tr.Dst,
        events := (if sm.onTransitioning
            then [Event.transitioningHook tr.Src tr.Dst tr.trigger] else [])
          ++ fringeRun sm.onFringe (Event.reentryCb tr.Dst) tr.trigger S.reentryFuncs
          ++ (if sm.onTransitioned
            then [Event.transitionedHook tr.Src tr.Dst tr.trigger] else [])
          ++ [Event.stateSet tr.Dst] }
    ∧ (Fire sm fuel ctx t inp).actual = sm.actual
    ∧ ∀ e ∈ (Fire sm fuel ctx t inp).events, e.isEntryOrExit = false := by
  have hcur : currentTransition sm t = some tr := by
    unfold currentTransition
    rw [hS]
    simp [htr]
  have hre : reenter sm.heap sm.onFringe tr
      = fringeRun sm.onFringe (Event.reentryCb tr.Dst) tr.trigger S.reentryFuncs := by
    unfold reenter
    rw [← hself, hsrc, hS]
  have hst : statesEqual tr.Src tr.Dst = true := by
    simp [statesEqual, hself]
  have hf : fire sm.heap sm.onFringe fuel ctx tr inp
      = Except.ok (fringeRun sm.onFringe (Event.reentryCb tr.Dst) tr.trigger S.reentryFuncs) := by
    simp only [fire, hperm, hst, if_true]
    rw [hre]
  have hmain := Fire_found_ok sm fuel ctx t inp tr _ hw hcur hf
  refine ⟨hmain, ?_, ?_⟩
  · rw [hmain]
    show tr.Dst = sm.actual
    rw [← hself, hsrc]
  · intro e he
    rw [hmain] at he
    have hfr : ∀ x ∈ fringeRun sm.onFringe (Event.reentryCb tr.Dst) tr.trigger S.reentryFuncs,
        Event.isEntryOrExit x = false := by
      intro x hx
      rcases fringeRun_mem hx with ⟨l, hl⟩ | ⟨l, hl⟩ <;> rw [hl] <;> rfl
    rcases List.mem_append.mp he with habc | hd
    · rcases List.mem_append.mp habc with hab | hc
      · rcases List.mem_append.mp hab with ha | hb
        · rw [mem_flag_list ha]
          rfl
        · exact hfr e hb
      · rw [mem_flag_list hc]
        rfl
    · rw [List.mem_singleton.mp hd]
      rfl

theorem Fire_reentry_runs_only_reentry_callbacks_witness :
    Fire idleSM 5 none "stop" 0 =
      { outcome := FireOutcome.ok, actual := "idle",
        events := [Event.reentryCb "idle" "reentryAll", Event.reentryCb "idle" "reentryStop",
          Event.stateSet "idle"] }
    ∧ (Fire idleSM 5 none "stop" 0).actual = "idle"
    ∧ ∀ e ∈ (Fire idleSM 5 none "stop" 0).events, e.isEntryOrExit = false := by
  have h := Fire_reentry_runs_only_reentry_callbacks idleSM 5 none "stop" 0
    idleState idleStopTr (by decide) rfl rfl rfl rfl rfl
  exact ⟨h.1, h.2.1, h.2.2⟩

/-- C4 counterexample: in this concrete machine a successful non-reentry Fire
records the on-transitioned hook invocation strictly before the
current-state update, so when the hook runs the machine's current state does
not yet equal the destination, contradicting the claim that the hook is
invoked after the state pointer has been updated. -/
theorem Fire_transitioned_hook_runs_before_update_cex :
    (Fire plainSM 5 none "go" 0).events =
      [Event.entryCb "y" "yEntry", Event.transitionedHook "x" "y" "go", Event.stateSet "y"]
    ∧ Event.transitionedHook "x" "y" "go" ∈ (Fire plainSM 5 none "go" 0).events
    ∧ Event.stateSet "y" ∈ (Fire plainSM 5 none "go" 0).events
    ∧ eventIdx (Fire plainSM 5 none "go" 0).events (Event.transitionedHook "x" "y" "go")
      < eventIdx (Fire plainSM 5 none "go" 0).events (Event.stateSet "y") := by
  refine ⟨?_, ?_, ?_, ?_⟩ <;> decide

/-- C4 amended: on a successfully fired non-reentry transition with the
on-transitioned hook registered, the hook is invoked after the exit and entry
callbacks but immediately before the current-state update; the machine's
current state equals the destination once Fire returns. -/
theorem Fire_transitioned_hook_then_update {T : Type} (sm : StateMachine T) (fuel : Nat)
    (ctx : Ctx) (t : Trigger) (inp : T) (tr : Transition T)
    (hw : (t == triggerWildcard) = false)
    (hcur : currentTransition sm t = some tr)
    (hperm : isPermitted tr ctx inp = none)
    (hne : statesEqual tr.Src tr.Dst = false)
    (hhook : sm.onTransitioned = true) :
    Fire sm fuel ctx t inp =
      { outcome := FireOutcome.ok, actual := tr.Dst,
        events := (if sm.onTransitioning
            then [Event.transitioningHook tr.Src tr.Dst tr.trigger] else [])
          ++ (exit sm.heap sm.onFringe fuel tr ++ enter sm.heap sm.onFringe fuel tr)
          ++ [Event.transitionedHook tr.Src tr.Dst tr.trigger]
          ++ [Event.stateSet tr.Dst] } := by
  have hf : fire sm.heap sm.onFringe fuel ctx tr inp
      = Except.ok (exit sm.heap sm.onFringe fuel tr ++ enter sm.heap sm.onFringe fuel tr) := by
    simp only [fire, hperm, hne]
    rfl
  have hmain := Fire_found_ok sm fuel ctx t inp tr _ hw hcur hf
  rw [hmain]
  simp [hhook]

theorem Fire_transitioned_hook_then_update_witness :
    Fire plainSM 5 none "go" 0 =
      { outcome := FireOutcome.ok, actual := "y",
        events := [Event.entryCb "y" "yEntry", Event.transitionedHook "x" "y" "go",
          Event.stateSet "y"] } := by
  have h := Fire_transitioned_hook_then_update plainSM 5 none "go" 0 goTr
    (by decide) rfl rfl (by decide) rfl
  exact h

theorem findSome?_eq_some_imp {α β : Type} (f : α → Option β) (l : List α) (b : β)
    (h : l.findSome? f = some b) : ∃ a, a ∈ l ∧ f a = some b := by
  induction l with
  | nil => simp [List.findSome?] at h
  | cons x xs ih =>
    rw [List.findSome?_cons] at h
    cases hfx : f x with
    | some v =>
      simp [hfx] at h
      exact ⟨x, List.mem_cons_self x xs, by rw [hfx, h]⟩
    | none =>
      simp [hfx] at h
      obtain ⟨a, ha, hfa⟩ := ih h
      exact ⟨a, List.mem_cons_of_mem x ha, hfa⟩

theorem findState_updateState_of_ne {T : Type} (h : Heap T) (l0 l : Label)
    (g : State T → State T) (hg : ∀ s, (g s).label = s.label) (hne : l ≠ l0) :
    findState (updateState h l0 g) l = findState h l := by
  induction h with
  | nil => rfl
  | cons s rest ih =>
    show List.find? (fun st => st.label == l)
        ((if s.label == l0 then g s else s) :: updateState rest l0 g)
      = List.find? (fun st => st.label == l) (s :: rest)
    by_cases hsl : s.label = l0
    · rw [if_pos (beq_iff_eq.mpr hsl)]
      have h2 : ¬((g s).label == l) = true := by
        rw [hg s, hsl]
        simp [Ne.symm hne]
      have h3 : ¬(s.label == l) = true := by
        rw [hsl]
        simp [Ne.symm hne]
      rw [@List.find?_cons_of_neg _ (fun st => st.label == l) (g s) (updateState rest l0 g) h2,
        @List.find?_cons_of_neg _ (fun st => st.label == l) s rest h3]
      exact ih
    · rw [if_neg (by simp [hsl])]
      cases hmatch : (s.label == l)
      · rw [@List.find?_cons_of_neg _ (fun st => st.label == l) s (updateState rest l0 g)
            (by simp [hmatch]),
          @List.find?_cons_of_neg _ (fun st => st.label == l) s rest (by simp [hmatch])]
        exact ih
      · rw [@List.find?_cons_of_pos _ (fun st => st.label == l) s (updateState rest l0 g) hmatch,
          @List.find?_cons_of_pos _ (fun st => st.label == l) s rest hmatch]

theorem findLacking_lacks {T : Type} (h : Heap T) (fuel : Nat) (start : Label)
    (trigger : Trigger) (l : Label)
    (hfl : findLacking h fuel start trigger = some l) :
    hasTransitionAt h l trigger = false := by
  unfold findLacking at hfl
  obtain ⟨tr, _, htr⟩ := findSome?_eq_some_imp _ _ _ hfl
  cases hs : hasTransitionAt h tr.Src trigger
  · rw [hs] at htr
    simp at htr
    rw [← htr]
    exact hs
  · rw [hs] at htr
    simp at htr
    cases hd : hasTransitionAt h tr.Dst trigger
    · rw [hd] at htr
      simp at htr
      rw [← htr]
      exact hd
    · rw [hd] at htr
      simp at htr

/-- C5 counterexample: the current state "a" has a single transition to "b"
and both lack the trigger, yet AlwaysPermit synthesizes the transition on "a"
only (the walk exits after the first augmentation): the distinct reachable
state "b" still lacks a transition for the trigger afterwards, contradicting
the claim that every reachable lacking state receives one. -/
theorem AlwaysPermit_skips_reachable_state_cex :
    (walkStateTransitions chainSM.heap 9 "a").map (fun tr => tr.Dst) = ["b"]
    ∧ hasTransitionAt chainSM.heap "b" "fb" = false
    ∧ (AlwaysPermit chainSM 9 "fb" "f" []).map
        (fun sm' => (hasTransitionAt sm'.heap "a" "fb", hasTransitionAt sm'.heap "b" "fb"))
      = some (true, false) := by
  refine ⟨?_, ?_, ?_⟩ <;> decide

/-- C5 amended: AlwaysPermit records the (trigger, destination, guards)
tuple machine-globally for fire-time fallback, but synthesizes a state-level
copy on at most one state: the first state encountered in the transition
walk (its source checked before its destination) that lacks the trigger.
All other states — in particular all further reachable states lacking the
trigger — are left unchanged, and a state that already has the trigger is
never overwritten. -/
theorem AlwaysPermit_augments_at_most_one_state {T : Type} (sm : StateMachine T)
    (fuel : Nat) (trigger : Trigger) (dst : Label) (guards : List (GuardClause T))
    (sm' : StateMachine T)
    (hw : (trigger == triggerWildcard) = false)
    (hres : AlwaysPermit sm fuel trigger dst guards = some sm') :
    sm'.alwaysPermitted = sm.alwaysPermitted
        ++ [{ Src := nilLabel, Dst := dst, trigger := trigger, guards := guards }]
    ∧ sm'.actual = sm.actual
    ∧ (findLacking sm.heap fuel sm.actual trigger = none → sm'.heap = sm.heap)
    ∧ (∀ l, findLacking sm.heap fuel sm.actual trigger = some l →
        hasTransitionAt sm.heap l trigger = false
        ∧ sm'.heap = updateState sm.heap l (fun s =>
            { s with transitions := s.transitions
                ++ [{ Src := l, Dst := dst, trigger := trigger, guards := guards }] }))
    ∧ ∀ l, some l ≠ findLacking sm.heap fuel sm.actual trigger →
        findState sm'.heap l = findState sm.heap l := by
  unfold AlwaysPermit at hres
  rw [hw] at hres
  simp at hres
  subst hres
  refine ⟨rfl, rfl, ?_, ?_, ?_⟩
  · intro hn
    simp only [hn]
  · intro l hl
    refine ⟨findLacking_lacks sm.heap fuel sm.actual trigger l hl, ?_⟩
    simp only [hl]
  · intro l hneq
    cases hfl : findLacking sm.heap fuel sm.actual trigger with
    | none => simp only [hfl]
    | some l0 =>
      have hnl : l ≠ l0 := by
        intro he
        rw [he] at hneq
        exact hneq hfl.symm
      simp only [hfl]
      exact findState_updateState_of_ne sm.heap l0 l _ (fun s => rfl) hnl

theorem AlwaysPermit_augments_at_most_one_state_witness :
    chainSMAug.alwaysPermitted = chainSM.alwaysPermitted
        ++ [{ Src := nilLabel, Dst := "f", trigger := "fb", guards := [] }]
    ∧ chainSMAug.actual = chainSM.actual
    ∧ (findLacking chainSM.heap 9 chainSM.actual "fb" = none → chainSMAug.heap = chainSM.heap)
    ∧ (∀ l, findLacking chainSM.heap 9 chainSM.actual "fb" = some l →
        hasTransitionAt chainSM.heap l "fb" = false
        ∧ chainSMAug.heap = updateState chainSM.heap l (fun s =>
            { s with transitions := s.transitions
                ++ [{ Src := l, Dst := "f", trigger := "fb", guards := [] }] }))
    ∧ ∀ l, some l ≠ findLacking chainSM.heap 9 chainSM.actual "fb" →
        findState chainSMAug.heap l = findState chainSM.heap l :=
  AlwaysPermit_augments_at_most_one_state chainSM 9 "fb" "f" [] chainSMAug
    (by decide) rfl

/-- C7: firing a trigger that is neither registered on the current state nor
covered by an always-permitted rule invokes the on-unhandled-trigger hook and
returns its result with the current state unchanged (even when the hook
reports an error), and panics when no hook is registered. -/
theorem Fire_unhandled_trigger {T : Type} (sm : StateMachine T) (fuel : Nat)
    (ctx : Ctx) (t : Trigger) (inp : T)
    (hw : (t == triggerWildcard) = false)
    (hnone : currentTransition sm t = none) :
    (∀ hook, sm.onUnhandledTrigger = some hook →
      Fire sm fuel ctx t inp =
        { outcome := hookOutcome (hook sm.actual t), actual := sm.actual, events := [] })
    ∧ (sm.onUnhandledTrigger = none →
      Fire sm fuel ctx t inp =
        { outcome := FireOutcome.fatal "trigger not handled",
          actual := sm.actual, events := [] }) := by
  constructor
  · intro hook hh
    unfold Fire
    rw [hw, hnone, hh]
    rfl
  · intro hh
    unfold Fire
    rw [hw, hnone, hh]
    rfl

theorem Fire_unhandled_trigger_witness :
    (Fire hookSM 5 none "zap" 0 =
      { outcome := FireOutcome.failed
          (FireError.hookReported "trigger zap not handled for state y"),
        actual := "y", events := [] })
    ∧ (Fire noHookSM 5 none "zap" 0 =
      { outcome := FireOutcome.fatal "trigger not handled",
        actual := "y", events := [] }) := by
  constructor
  · exact (Fire_unhandled_trigger hookSM 5 none "zap" 0 (by decide) rfl).1
      (fun l t => some ("trigger " ++ t ++ " not handled for state " ++ l)) rfl
  · exact (Fire_unhandled_trigger noHookSM 5 none "zap" 0 (by decide) rfl).2 rfl

/-- C10: a transition with no guard clauses can never surface a cancellation:
Fire behaves identically under an already-cancelled context and a live one —
the callbacks run and the current state is updated to the destination —
because cancellation is only checked after each guard evaluation and there is
no guard to evaluate. -/
theorem Fire_guardless_ignores_cancellation {T : Type} (sm : StateMachine T) (fuel : Nat)
    (c : String) (t : Trigger) (inp : T) (tr : Transition T)
    (hw : (t == triggerWildcard) = false)
    (hcur : currentTransition sm t = some tr)
    (hg : tr.guards = []) :
    Fire sm fuel (some c) t inp = Fire sm fuel none t inp
    ∧ (Fire sm fuel (some c) t inp).outcome = FireOutcome.ok
    ∧ (Fire sm fuel (some c) t inp).actual = tr.Dst := by
  have hperm : ∀ ctx : Ctx, isPermitted tr ctx inp = none := by
    intro ctx
    show guardLoop tr.guards ctx inp = none
    rw [hg]
    rfl
  have hfire : ∀ ctx : Ctx, fire sm.heap sm.onFringe fuel ctx tr inp =
      (if statesEqual tr.Src tr.Dst then Except.ok (reenter sm.heap sm.onFringe tr)
       else Except.ok (exit sm.heap sm.onFringe fuel tr ++ enter sm.heap sm.onFringe fuel tr)) := by
    intro ctx
    unfold fire
    rw [hperm]
  have hmain : ∀ ctx : Ctx, Fire sm fuel ctx t inp =
      { outcome := FireOutcome.ok, actual := tr.Dst,
        events :=
          (if sm.onTransitioning
            then [Event.transitioningHook tr.Src tr.Dst tr.trigger] else [])
          ++ (if statesEqual tr.Src tr.Dst then reenter sm.heap sm.onFringe tr
              else exit sm.heap sm.onFringe fuel tr ++ enter sm.heap sm.onFringe fuel tr)
          ++ (if sm.onTransitioned
              then [Event.transitionedHook tr.Src tr.Dst tr.trigger] else [])
          ++ [Event.stateSet tr.Dst] } := by
    intro ctx
    rw [Fire_found sm fuel ctx t inp tr hw hcur]
    simp only [fireResult, hfire ctx]
    cases hb : statesEqual tr.Src tr.Dst <;> simp [hb]
  refine ⟨?_, ?_, ?_⟩
  · rw [hmain (some c), hmain none]
  · rw [hmain (some c)]
  · rw [hmain (some c)]

/-- C8: when B is already an ancestor of A (A is a substate of B, including
equality by label), linking B as a substate of A returns an error and leaves
the heap — hence both states' parent links — unchanged. -/
theorem LinkSubstates_rejects_cycle {T : Type} (h : Heap T) (fuel : Nat) (a b : Label)
    (sb : State T)
    (hb : findState h b = some sb)
    (hsub : IsSubstateOf h fuel a b = true) :
    (LinkSubstates h fuel a [b]).1 = h ∧ (LinkSubstates h fuel a [b]).2.isSome = true := by
  cases hp : sb.parent with
  | some pp =>
    have hres : LinkSubstates h fuel a [b] = (h, some "state already has parent") := by
      simp [LinkSubstates, hb, hp]
    rw [hres]
    exact ⟨rfl, rfl⟩
  | none =>
    have hres : LinkSubstates h fuel a [b] = (h, some "would cause a referential cycle") := by
      simp [LinkSubstates, hb, hp, hsub]
    rw [hres]
    exact ⟨rfl, rfl⟩

theorem LinkSubstates_rejects_cycle_witness :
    (LinkSubstates cycHeap 3 "cx" ["cy"]).1 = cycHeap
    ∧ (LinkSubstates cycHeap 3 "cx" ["cy"]).2.isSome = true :=
  LinkSubstates_rejects_cycle cycHeap 3 "cx" "cy" cycY rfl (by decide)

theorem fringeRun_filter {onFr : Bool} {mk : String → Event} {tg : Trigger}
    {funcs : List triggeredFunc} {pred : Event → Bool}
    (hHook : ∀ l, pred (Event.fringeHook l) = false) :
    (fringeRun onFr mk tg funcs).filter pred
      = ((funcs.filter (fun tf => triggersEqual tf.t tg)).map (fun tf => mk tf.f.label)).filter
          pred := by
  unfold fringeRun
  induction funcs.filter (fun tf => triggersEqual tf.t tg) with
  | nil => rfl
  | cons tf rest ih =>
    cases onFr <;>
      simp [List.flatMap_cons, List.filter_append, hHook, List.filter_cons] at ih ⊢ <;>
      rw [ih]

/-- C3: for A and B distinct substates of the same immediate parent P (with P
itself a substate of a top-level Q) and C a top-level state outside P's
subtree: a permitted transition A→B runs exactly A's matching exit callbacks
and B's matching entry callbacks — none of P's; and a permitted transition
A→C runs A's, P's and Q's exit callbacks inner-to-outer plus C's entry
callbacks, with P's exit callbacks appearing exactly once in the trace. -/
theorem exit_enter_hierarchical {T : Type} (h : Heap T) (onFr : Bool) (tg : Trigger)
    (A B P Q C : State T) (a b p q c : Label)
    (hA : findState h a = some A) (hB : findState h b = some B)
    (hP : findState h p = some P) (hQ : findState h q = some Q)
    (hC : findState h c = some C)
    (hAp : A.parent = some p) (hBp : B.parent = some p)
    (hPq : P.parent = some q) (hQn : Q.parent = none) (hCn : C.parent = none)
    (hab : a ≠ b) (hac : a ≠ c) (hap : a ≠ p) (haq : a ≠ q)
    (hbp : b ≠ p) (hbq : b ≠ q) (hcp : c ≠ p) (hcq : c ≠ q) (hpq : p ≠ q) :
    (exit h onFr 5 { Src := a, Dst := b, trigger := tg, guards := [] }
        = fringeRun onFr (Event.exitCb a) tg A.exitFuncs
      ∧ enter h onFr 5 { Src := a, Dst := b, trigger := tg, guards := [] }
        = fringeRun onFr (Event.entryCb b) tg B.entryFuncs
      ∧ ∀ e ∈ exit h onFr 5 { Src := a, Dst := b, trigger := tg, guards := [] }
            ++ enter h onFr 5 { Src := a, Dst := b, trigger := tg, guards := [] },
          e.stateTag ≠ some p)
    ∧ (exit h onFr 5 { Src := a, Dst := c, trigger := tg, guards := [] }
        = fringeRun onFr (Event.exitCb a) tg A.exitFuncs
          ++ (fringeRun onFr (Event.exitCb p) tg P.exitFuncs
            ++ fringeRun onFr (Event.exitCb q) tg Q.exitFuncs)
      ∧ enter h onFr 5 { Src := a, Dst := c, trigger := tg, guards := [] }
        = fringeRun onFr (Event.entryCb c) tg C.entryFuncs
      ∧ (exit h onFr 5 { Src := a, Dst := c, trigger := tg, guards := [] }
            ++ enter h onFr 5 { Src := a, Dst := c, trigger := tg, guards := [] }).filter
            (fun e => e.stateTag == some p)
          = (P.exitFuncs.filter (fun tf => triggersEqual tf.t tg)).map
              (fun tf => Event.exitCb p tf.f.label)) := by
  have sub_b_a : IsSubstateOf h 4 b a = false := by
    simp [IsSubstateOf, statesEqual, hB, hBp, hP, hPq, hQ, hQn,
      Ne.symm hab, Ne.symm hap, Ne.symm haq]
  have sub_b_p : IsSubstateOf h 4 b p = true := by
    simp [IsSubstateOf, statesEqual, hB, hBp, Ne.symm hbp]
  have sub_a_b : IsSubstateOf h 4 a b = false := by
    simp [IsSubstateOf, statesEqual, hA, hAp, hP, hPq, hQ, hQn,
      hab, Ne.symm hbp, Ne.symm hbq]
  have sub_a_p : IsSubstateOf h 4 a p = true := by
    simp [IsSubstateOf, statesEqual, hA, hAp, hap]
  have sub_c_p4 : IsSubstateOf h 4 c p = false := by
    simp [IsSubstateOf, statesEqual, hC, hCn, hcp]
  have sub_c_q3 : IsSubstateOf h 3 c q = false := by
    simp [IsSubstateOf, statesEqual, hC, hCn, hcq]
  have sub_a_c : IsSubstateOf h 4 a c = false := by
    simp [IsSubstateOf, statesEqual, hA, hAp, hP, hPq, hQ, hQn,
      hac, Ne.symm hcp, Ne.symm hcq]
  have exit_ab : exit h onFr 5 { Src := a, Dst := b, trigger := tg, guards := [] }
      = fringeRun onFr (Event.exitCb a) tg A.exitFuncs := by
    simp [exit, Contains, parentOf, hA, hAp, hB, hBp, sub_b_a, sub_b_p]
  have enter_ab : enter h onFr 5 { Src := a, Dst := b, trigger := tg, guards := [] }
      = fringeRun onFr (Event.entryCb b) tg B.entryFuncs := by
    simp [enter, Contains, parentOf, hA, hAp, hB, hBp, sub_a_b, sub_a_p]
  have exit_ac : exit h onFr 5 { Src := a, Dst := c, trigger := tg, guards := [] }
      = fringeRun onFr (Event.exitCb a) tg A.exitFuncs
        ++ (fringeRun onFr (Event.exitCb p) tg P.exitFuncs
          ++ fringeRun onFr (Event.exitCb q) tg Q.exitFuncs) := by
    simp [exit, Contains, parentOf, hA, hAp, hP, hPq, hQ, hQn, hC, hCn,
      sub_c_p4, sub_c_q3]
  have enter_ac : enter h onFr 5 { Src := a, Dst := c, trigger := tg, guards := [] }
      = fringeRun onFr (Event.entryCb c) tg C.entryFuncs := by
    simp [enter, Contains, parentOf, hA, hAp, hC, hCn, sub_a_c]
  refine ⟨⟨exit_ab, enter_ab, ?_⟩, exit_ac, enter_ac, ?_⟩
  · intro e he
    rw [exit_ab, enter_ab] at he
    rcases List.mem_append.mp he with hx | hx <;>
      rcases fringeRun_mem hx with ⟨l, hl⟩ | ⟨l, hl⟩ <;> rw [hl] <;>
        simp [Event.stateTag, hap, hbp]
  · rw [exit_ac, enter_ac]
    have hHook : ∀ l, ((Event.fringeHook l).stateTag == some p) = false := by
      intro l
      rfl
    have hone : ∀ (mk2 : String → Event) (funcs : List triggeredFunc),
        (∀ l : String, ((mk2 l).stateTag == some p) = false) →
        (fringeRun onFr mk2 tg funcs).filter (fun e => e.stateTag == some p) = [] := by
      intro mk2 funcs hmk
      rw [fringeRun_filter hHook]
      apply List.filter_eq_nil_iff.mpr
      intro e hee
      rcases List.mem_map.mp hee with ⟨tf, _, hl⟩
      rw [← hl]
      simp [hmk]
    have hkeep : (fringeRun onFr (Event.exitCb p) tg P.exitFuncs).filter
        (fun e => e.stateTag == some p)
        = (P.exitFuncs.filter (fun tf => triggersEqual tf.t tg)).map
            (fun tf => Event.exitCb p tf.f.label) := by
      rw [fringeRun_filter hHook]
      apply List.filter_eq_self.mpr
      intro e hee
      rcases List.mem_map.mp hee with ⟨tf, _, hl⟩
      rw [← hl]
      simp [Event.stateTag]
    have hxa : (fringeRun onFr (Event.exitCb a) tg A.exitFuncs).filter
        (fun e => e.stateTag == some p) = [] := by
      apply hone
      intro l
      simp [Event.stateTag, hap]
    have hxq : (fringeRun onFr (Event.exitCb q) tg Q.exitFuncs).filter
        (fun e => e.stateTag == some p) = [] := by
      apply hone
      intro l
      simp [Event.stateTag, Ne.symm hpq]
    have hxc : (fringeRun onFr (Event.entryCb c) tg C.entryFuncs).filter
        (fun e => e.stateTag == some p) = [] := by
      apply hone
      intro l
      simp [Event.stateTag, hcp]
    simp [List.filter_append, hkeep, hxa, hxq, hxc]

theorem exit_enter_hierarchical_witness :
    (exit hierHeap false 5 { Src := "a", Dst := "b", trigger := "go", guards := [] }
        = [Event.exitCb "a" "aExit"]
      ∧ enter hierHeap false 5 { Src := "a", Dst := "b", trigger := "go", guards := [] }
        = [Event.entryCb "b" "bEntry"]
      ∧ ∀ e ∈ exit hierHeap false 5 { Src := "a", Dst := "b", trigger := "go", guards := [] }
            ++ enter hierHeap false 5 { Src := "a", Dst := "b", trigger := "go", guards := [] },
          e.stateTag ≠ some "p")
    ∧ (exit hierHeap false 5 { Src := "a", Dst := "c", trigger := "go", guards := [] }
        = [Event.exitCb "a" "aExit"] ++ ([Event.exitCb "p" "pExit"] ++ [Event.exitCb "q" "qExit"])
      ∧ enter hierHeap false 5 { Src := "a", Dst := "c", trigger := "go", guards := [] }
        = [Event.entryCb "c" "cEntry"]
      ∧ (exit hierHeap false 5 { Src := "a", Dst := "c", trigger := "go", guards := [] }
            ++ enter hierHeap false 5 { Src := "a", Dst := "c", trigger := "go", guards := [] }).filter
            (fun e => e.stateTag == some "p")
          = [Event.exitCb "p" "pExit"]) :=
  exit_enter_hierarchical hierHeap false "go" hierA hierB hierP hierQ hierC
    "a" "b" "p" "q" "c" rfl rfl rfl rfl rfl rfl rfl rfl rfl rfl
    (by decide) (by decide) (by decide) (by decide) (by decide) (by decide)
    (by decide) (by decide) (by decide)

theorem Fire_guardless_ignores_cancellation_witness :
    Fire plainSM 5 (some "ctx cancelled") "go" 0 = Fire plainSM 5 none "go" 0
    ∧ (Fire plainSM 5 (some "ctx cancelled") "go" 0).outcome = FireOutcome.ok
    ∧ (Fire plainSM 5 (some "ctx cancelled") "go" 0).actual = "y" := by
  exact Fire_guardless_ignores_cancellation plainSM 5 "ctx cancelled" "go" 0 goTr
    (by decide) rfl rfl

theorem discover_inv {T : Type} (trs : List (Transition T)) (v : List Label) :
    walkInv v (discover v trs) := by
  induction trs generalizing v with
  | nil => exact ⟨List.nodup_nil, by simp [discover], by simp [discover]⟩
  | cons tr rest ih =>
    by_cases hd : tr.Dst ∈ v
    · rw [discover, if_pos hd]
      exact ih v
    · rw [discover, if_neg hd]
      obtain ⟨ihn, ihfresh, ihmem⟩ := ih (tr.Dst :: v)
      refine ⟨?_, ?_, ?_⟩
      · refine List.nodup_cons.mpr ⟨?_, ihn⟩
        intro hin
        exact ihfresh tr.Dst hin (List.mem_cons_self _ _)
      · intro l hl
        rcases List.mem_cons.mp hl with rfl | hl2
        · exact hd
        · intro hlv
          exact ihfresh l hl2 (List.mem_cons_of_mem _ hlv)
      · intro l
        rw [ihmem l]
        constructor
        · rintro (h1 | h2)
          · exact Or.inl (List.mem_cons_of_mem _ h1)
          · rcases List.mem_cons.mp h2 with rfl | hlv
            · exact Or.inl (List.mem_cons_self _ _)
            · exact Or.inr hlv
        · rintro (h1 | h2)
          · rcases List.mem_cons.mp h1 with rfl | hl1
            · exact Or.inr (List.mem_cons_self _ _)
            · exact Or.inl hl1
          · exact Or.inr (List.mem_cons_of_mem _ h2)

theorem walkInv_trans {v : List Label} {r1 r2 : List Label × List Label}
    (h1 : walkInv v r1) (h2 : walkInv r1.2 r2) : walkInv v (r1.1 ++ r2.1, r2.2) := by
  obtain ⟨n1, f1, m1⟩ := h1
  obtain ⟨n2, f2, m2⟩ := h2
  refine ⟨?_, ?_, ?_⟩
  · refine List.Nodup.append n1 n2 ?_
    intro l hl1 hl2
    exact f2 l hl2 ((m1 l).mpr (Or.inl hl1))
  · intro l hl
    rcases List.mem_append.mp hl with h | h
    · exact f1 l h
    · intro hv
      exact f2 l h ((m1 l).mpr (Or.inr hv))
  · intro l
    rw [m2 l, List.mem_append, m1 l]
    tauto

theorem walkStatesList_inv (step : Label → List Label → List Label × List Label)
    (hstep : ∀ src v, walkInv v (step src v)) :
    ∀ (queue : List Label) (v : List Label), walkInv v (walkStatesList step queue v) := by
  intro queue
  induction queue with
  | nil =>
    intro v
    exact ⟨List.nodup_nil, by simp [walkStatesList], by simp [walkStatesList]⟩
  | cons d rest ih =>
    intro v
    exact walkInv_trans (hstep d v) (ih (step d v).2)

theorem walkStatesInternal_inv {T : Type} (h : Heap T) :
    ∀ (f : Nat) (src : Label) (v : List Label), walkInv v (walkStatesInternal h f src v) := by
  intro f
  induction f with
  | zero =>
    intro src v
    exact ⟨List.nodup_nil, by simp [walkStatesInternal], by simp [walkStatesInternal]⟩
  | succ f ih =>
    intro src v
    rw [walkStatesInternal]
    cases hf : findState h src with
    | none => exact ⟨List.nodup_nil, by simp, by simp⟩
    | some s =>
      exact walkInv_trans (discover_inv s.transitions v)
        (walkStatesList_inv (walkStatesInternal h f) (fun src2 v2 => ih src2 v2)
          (discover v s.transitions).1 (discover v s.transitions).2)

theorem find_map_hyperState (ms : List Label) :
    ∀ (ls : List Label) (l : Label), l ∈ ls →
      List.find? (fun st => st.label == l) (ls.map (hyperState ms)) = some (hyperState ms l) := by
  intro ls
  induction ls with
  | nil => intro l hl; cases hl
  | cons x xs ih =>
    intro l hl
    rw [List.map_cons]
    by_cases hx : x = l
    · subst hx
      exact List.find?_cons_of_pos _ (by simp [hyperState])
    · rw [List.find?_cons_of_neg _ (by simp [hyperState, hx])]
      rcases List.mem_cons.mp hl with rfl | hxs
      · exact absurd rfl hx
      · exact ih l hxs

theorem hyper_find {ls : List Label} {l : Label} (hl : l ∈ ls) :
    findState (hyperHeap ls) l = some (hyperState ls l) :=
  find_map_hyperState ls ls l hl

theorem hyper_dsts (ls : List Label) (l : Label) :
    (hyperState ls l).transitions.map (fun tr => tr.Dst) = ls.filter (fun m => m != l) := by
  simp [hyperState, List.map_map]
  exact List.map_id _

theorem discover_all_new {T : Type} :
    ∀ (trs : List (Transition T)) (v : List Label),
      (trs.map (fun tr => tr.Dst)).Nodup →
      (∀ d ∈ trs.map (fun tr => tr.Dst), d ∉ v) →
      (discover v trs).1 = trs.map (fun tr => tr.Dst) := by
  intro trs
  induction trs with
  | nil => intro v _ _; rfl
  | cons tr rest ih =>
    intro v hnd hdisj
    have hd : tr.Dst ∉ v := hdisj tr.Dst (by simp)
    rw [discover, if_neg hd]
    have hrest : (discover (tr.Dst :: v) rest).1 = rest.map (fun tr => tr.Dst) := by
      apply ih
      · exact (List.nodup_cons.mp (by simpa using hnd)).2
      · intro d hdm
        intro hdv
        rcases List.mem_cons.mp hdv with rfl | hdv2
        · exact (List.nodup_cons.mp (by simpa using hnd)).1 hdm
        · exact hdisj d (by simpa using Or.inr hdm) hdv2
    simp [hrest]

theorem discover_all_old {T : Type} :
    ∀ (trs : List (Transition T)) (v : List Label),
      (∀ tr ∈ trs, tr.Dst ∈ v) → discover v trs = ([], v) := by
  intro trs
  induction trs with
  | nil => intro v _; rfl
  | cons tr rest ih =>
    intro v hv
    rw [discover, if_pos (hv tr (by simp))]
    exact ih v (fun tr2 h2 => hv tr2 (List.mem_cons_of_mem _ h2))

theorem hyper_state_of_find {ls : List Label} {src : Label} {s : State Unit}
    (hf : findState (hyperHeap ls) src = some s) : ∃ x, x ∈ ls ∧ s = hyperState ls x := by
  have hmem : s ∈ hyperHeap ls := List.mem_of_find?_eq_some hf
  obtain ⟨x, hx, hxs⟩ := List.mem_map.mp hmem
  exact ⟨x, hx, hxs.symm⟩

theorem hyper_walkStatesInternal_stale (ls : List Label) :
    ∀ (f : Nat) (src : Label) (v : List Label), (∀ l ∈ ls, l ∈ v) →
      walkStatesInternal (hyperHeap ls) f src v = ([], v) := by
  intro f
  cases f with
  | zero => intro src v _; rfl
  | succ f =>
    intro src v hv
    rw [walkStatesInternal]
    cases hf : findState (hyperHeap ls) src with
    | none => rfl
    | some s =>
      obtain ⟨x, hx, rfl⟩ := hyper_state_of_find hf
      have hall : ∀ tr ∈ (hyperState ls x).transitions, tr.Dst ∈ v := by
        intro tr htr
        have : tr.Dst ∈ (hyperState ls x).transitions.map (fun tr => tr.Dst) :=
          List.mem_map.mpr ⟨tr, htr, rfl⟩
        rw [hyper_dsts] at this
        exact hv tr.Dst (List.mem_of_mem_filter this)
      have hdz := discover_all_old _ _ hall
      simp [hdz, walkStatesList]

theorem hyper_walkStatesList_stale (ls : List Label) (f : Nat) :
    ∀ (queue : List Label) (v : List Label), (∀ l ∈ ls, l ∈ v) →
      walkStatesList (walkStatesInternal (hyperHeap ls) f) queue v = ([], v) := by
  intro queue
  induction queue with
  | nil => intro v _; rfl
  | cons d rest ih =>
    intro v hv
    show (let a := walkStatesInternal (hyperHeap ls) f d v
          let b := walkStatesList (walkStatesInternal (hyperHeap ls) f) rest a.2
          (a.1 ++ b.1, b.2)) = ([], v)
    rw [hyper_walkStatesInternal_stale ls f d v hv]
    simp [ih v hv]

theorem length_filter_ne_of_nodup {ls : List Label} {a : Label} (hnd : ls.Nodup)
    (ha : a ∈ ls) : (ls.filter (fun m => m != a)).length + 1 = ls.length := by
  induction ls with
  | nil => cases ha
  | cons x xs ih =>
    obtain ⟨hxnotin, hndxs⟩ := List.nodup_cons.mp hnd
    by_cases hx : x = a
    · subst hx
      have hself : xs.filter (fun m => m != x) = xs := by
        apply List.filter_eq_self.mpr
        intro m hm
        simp only [bne_iff_ne, ne_eq, decide_eq_true_eq]
        intro e
        exact hxnotin (e ▸ hm)
      simp [List.filter_cons, hself]
    · have haxs : a ∈ xs := by
        rcases List.mem_cons.mp ha with hh | hh
        · exact absurd hh.symm hx
        · exact hh
      have hih := ih hndxs haxs
      have hcond : (x != a) = true := by simp [hx]
      simp only [List.filter_cons, hcond, if_true, List.length_cons]
      omega

theorem length_filter_le_of_imp {α : Type} (l : List α) (p1 p2 : α → Bool)
    (himp : ∀ x ∈ l, p2 x = true → p1 x = true) :
    (l.filter p2).length ≤ (l.filter p1).length := by
  induction l with
  | nil => simp
  | cons y ys ih =>
    have ih2 := ih (fun x hx => himp x (List.mem_cons_of_mem _ hx))
    cases h2 : p2 y with
    | false =>
      cases h1 : p1 y <;> simp [List.filter_cons, h1, h2] <;> omega
    | true =>
      have h1 := himp y (List.mem_cons_self _ _) h2
      simp [List.filter_cons, h1, h2]
      omega

theorem length_filter_lt_of_imp {α : Type} (l : List α) (p1 p2 : α → Bool)
    (himp : ∀ x ∈ l, p2 x = true → p1 x = true)
    (x0 : α) (hx0 : x0 ∈ l) (h1 : p1 x0 = true) (h2 : p2 x0 = false) :
    (l.filter p2).length < (l.filter p1).length := by
  induction l with
  | nil => cases hx0
  | cons y ys ih =>
    have himpt : ∀ x ∈ ys, p2 x = true → p1 x = true :=
      fun x hx => himp x (List.mem_cons_of_mem _ hx)
    rcases List.mem_cons.mp hx0 with rfl | hmem
    · simp [List.filter_cons, h1, h2]
      exact Nat.lt_succ_of_le (length_filter_le_of_imp ys p1 p2 himpt)
    · have ihlt := ih himpt hmem
      cases hy2 : p2 y with
      | false =>
        cases hy1 : p1 y <;> simp [List.filter_cons, hy1, hy2] <;> omega
      | true =>
        have hy1 := himp y (List.mem_cons_self _ _) hy2
        simp [List.filter_cons, hy1, hy2]
        omega

theorem discover_sub {T : Type} :
    ∀ (trs : List (Transition T)) (v : List Label) (l : Label),
      l ∈ (discover v trs).1 → l ∈ trs.map (fun tr => tr.Dst) := by
  intro trs
  induction trs with
  | nil =>
    intro v l hl
    simp [discover] at hl
  | cons tr rest ih =>
    intro v l hl
    by_cases hd : tr.Dst ∈ v
    · rw [discover, if_pos hd] at hl
      simp only [List.map_cons]
      exact List.mem_cons_of_mem _ (ih v l hl)
    · rw [discover, if_neg hd] at hl
      rcases List.mem_cons.mp hl with rfl | hl2
      · simp
      · simp only [List.map_cons]
        exact List.mem_cons_of_mem _ (ih (tr.Dst :: v) l hl2)

theorem discover_covers {T : Type} :
    ∀ (trs : List (Transition T)) (v : List Label) (tr : Transition T),
      tr ∈ trs → tr.Dst ∈ (discover v trs).2 := by
  intro trs
  induction trs with
  | nil => intro v tr h; cases h
  | cons tr0 rest ih =>
    intro v tr htr
    by_cases hd : tr0.Dst ∈ v
    · rw [discover, if_pos hd]
      rcases List.mem_cons.mp htr with rfl | h2
      · obtain ⟨_, _, hmem⟩ := discover_inv rest v
        exact (hmem tr.Dst).mpr (Or.inr hd)
      · exact ih v tr h2
    · rw [discover, if_neg hd]
      show tr.Dst ∈ (discover (tr0.Dst :: v) rest).2
      rcases List.mem_cons.mp htr with rfl | h2
      · obtain ⟨_, _, hmem⟩ := discover_inv rest (tr.Dst :: v)
        exact (hmem tr.Dst).mpr (Or.inr (List.mem_cons_self _ _))
      · exact ih (tr0.Dst :: v) tr h2

theorem unseenCount_le_of_subset {T : Type} (h : Heap T) {v v2 : List Label}
    (hsub : ∀ l, l ∈ v → l ∈ v2) : unseenCount h v2 ≤ unseenCount h v := by
  apply length_filter_le_of_imp
  intro x _ hx
  simp only [decide_eq_true_eq] at hx ⊢
  intro hxv
  exact hx (hsub x hxv)

theorem unseenCount_lt {T : Type} (h : Heap T) {v v2 : List Label} {x0 : Label}
    (hu : x0 ∈ labelUniverse h) (hnotv : x0 ∉ v) (hsub : ∀ l, l ∈ v → l ∈ v2)
    (hinv2 : x0 ∈ v2) : unseenCount h v2 < unseenCount h v := by
  apply length_filter_lt_of_imp _ _ _ ?_ x0 hu ?_ ?_
  · intro x _ hx
    simp only [decide_eq_true_eq] at hx ⊢
    intro hxv
    exact hx (hsub x hxv)
  · simp [hnotv]
  · simp [hinv2]

theorem mem_labelUniverse_of_succ {T : Type} {h : Heap T} {l m : Label} {s : State T}
    (hf : findState h l = some s) (hm : m ∈ s.transitions.map (fun tr => tr.Dst)) :
    m ∈ labelUniverse h := by
  have hs : s ∈ h := List.mem_of_find?_eq_some hf
  unfold labelUniverse
  rw [List.mem_flatMap]
  exact ⟨s, hs, List.mem_cons_of_mem _ hm⟩

theorem heapSucc_of_find {T : Type} {h : Heap T} {l : Label} {s : State T}
    (hf : findState h l = some s) :
    heapSucc h l = s.transitions.map (fun tr => tr.Dst) := by
  unfold heapSucc
  rw [hf]

theorem heapSucc_of_none {T : Type} {h : Heap T} {l : Label}
    (hf : findState h l = none) : heapSucc h l = [] := by
  unfold heapSucc
  rw [hf]

theorem walkStatesInternal_mono {T : Type} (h : Heap T) (f : Nat) (src : Label)
    (v : List Label) : ∀ l ∈ v, l ∈ (walkStatesInternal h f src v).2 := by
  obtain ⟨_, _, hmem⟩ := walkStatesInternal_inv h f src v
  intro l hl
  exact (hmem l).mpr (Or.inr hl)

theorem walkStatesList_mono {T : Type} (h : Heap T) (f : Nat) (queue : List Label)
    (v : List Label) :
    ∀ l ∈ v, l ∈ (walkStatesList (walkStatesInternal h f) queue v).2 := by
  obtain ⟨_, _, hmem⟩ :=
    walkStatesList_inv (walkStatesInternal h f) (fun s2 v2 => walkStatesInternal_inv h f s2 v2)
      queue v
  intro l hl
  exact (hmem l).mpr (Or.inr hl)

theorem walkListPostAux {T : Type} (h : Heap T) (f : Nat)
    (hpost : ∀ src v, unseenCount h v < f →
      succClosed h [src] (walkStatesInternal h f src v).2
      ∧ succClosed h (walkStatesInternal h f src v).1 (walkStatesInternal h f src v).2) :
    ∀ (queue v : List Label), unseenCount h v < f →
      succClosed h queue (walkStatesList (walkStatesInternal h f) queue v).2
      ∧ succClosed h (walkStatesList (walkStatesInternal h f) queue v).1
          (walkStatesList (walkStatesInternal h f) queue v).2 := by
  intro queue
  induction queue with
  | nil =>
    intro v _
    constructor
    · intro l hl
      cases hl
    · intro l hl
      simp [walkStatesList] at hl
  | cons d rest ihq =>
    intro v hlt
    have hav := walkStatesInternal_mono h f d v
    have hlt2 : unseenCount h (walkStatesInternal h f d v).2 < f :=
      lt_of_le_of_lt (unseenCount_le_of_subset h hav) hlt
    have hpa := hpost d v hlt
    have hrest := ihq (walkStatesInternal h f d v).2 hlt2
    have hmono := walkStatesList_mono h f rest (walkStatesInternal h f d v).2
    constructor
    · intro l hl m hm
      rcases List.mem_cons.mp hl with rfl | hl2
      · exact hmono m (hpa.1 l (List.mem_singleton_self l) m hm)
      · exact hrest.1 l hl2 m hm
    · intro l hl m hm
      rcases List.mem_append.mp hl with h1 | h2
      · exact hmono m (hpa.2 l h1 m hm)
      · exact hrest.2 l h2 m hm

theorem walkStates_post {T : Type} (h : Heap T) :
    ∀ f : Nat, ∀ (src : Label) (v : List Label), unseenCount h v < f →
      succClosed h [src] (walkStatesInternal h f src v).2
      ∧ succClosed h (walkStatesInternal h f src v).1 (walkStatesInternal h f src v).2 := by
  intro f
  induction f with
  | zero =>
    intro src v hlt
    exact absurd hlt (Nat.not_lt_zero _)
  | succ f ih =>
    intro src v hlt
    cases hfind : findState h src with
    | none =>
      have hres : walkStatesInternal h (f+1) src v = ([], v) := by
        rw [walkStatesInternal, hfind]
      constructor
      · intro l hl m hm
        obtain rfl := List.mem_singleton.mp hl
        rw [heapSucc_of_none hfind] at hm
        cases hm
      · intro l hl
        rw [hres] at hl
        cases hl
    | some s =>
      have hres : walkStatesInternal h (f+1) src v
          = ((discover v s.transitions).1
              ++ (walkStatesList (walkStatesInternal h f) (discover v s.transitions).1
                  (discover v s.transitions).2).1,
             (walkStatesList (walkStatesInternal h f) (discover v s.transitions).1
                  (discover v s.transitions).2).2) := by
        rw [walkStatesInternal, hfind]
      constructor
      · intro l hl m hm
        obtain rfl := List.mem_singleton.mp hl
        rw [heapSucc_of_find hfind] at hm
        obtain ⟨tr, htr, rfl⟩ := List.mem_map.mp hm
        rw [hres]
        exact walkStatesList_mono h f (discover v s.transitions).1
          (discover v s.transitions).2 tr.Dst (discover_covers s.transitions v tr htr)
      · intro l hl m hm
        rw [hres] at hl ⊢
        by_cases hq : (discover v s.transitions).1 = []
        · rw [hq] at hl
          simp [walkStatesList] at hl
        · obtain ⟨n0, hn0⟩ := List.exists_mem_of_ne_nil _ hq
          have hn0tr : n0 ∈ s.transitions.map (fun tr => tr.Dst) :=
            discover_sub s.transitions v n0 hn0
          have hn0univ : n0 ∈ labelUniverse h := mem_labelUniverse_of_succ hfind hn0tr
          obtain ⟨_, hfresh, hmem⟩ := discover_inv s.transitions v
          have hn0notv : n0 ∉ v := hfresh n0 hn0
          have hn0in2 : n0 ∈ (discover v s.transitions).2 := (hmem n0).mpr (Or.inl hn0)
          have hsub : ∀ x, x ∈ v → x ∈ (discover v s.transitions).2 :=
            fun x hx => (hmem x).mpr (Or.inr hx)
          have hlt2 : unseenCount h (discover v s.transitions).2 < f := by
            have := unseenCount_lt h hn0univ hn0notv hsub hn0in2
            omega
          have hpl := walkListPostAux h f ih (discover v s.transitions).1
            (discover v s.transitions).2 hlt2
          rcases List.mem_append.mp hl with h1 | h2
          · exact hpl.1 l h1 m hm
          · exact hpl.2 l h2 m hm

theorem walkListSoundAux {T : Type} (h : Heap T) (start : Label) (f : Nat)
    (hstep : ∀ src v, (∀ l ∈ v, Reaches h start l) → Reaches h start src →
      ∀ l ∈ (walkStatesInternal h f src v).2, Reaches h start l) :
    ∀ (queue v : List Label), (∀ l ∈ v, Reaches h start l) →
      (∀ d ∈ queue, Reaches h start d) →
      ∀ l ∈ (walkStatesList (walkStatesInternal h f) queue v).2, Reaches h start l := by
  intro queue
  induction queue with
  | nil =>
    intro v hv _ l hl
    exact hv l hl
  | cons d rest ihq =>
    intro v hv hq l hl
    have hva : ∀ x ∈ (walkStatesInternal h f d v).2, Reaches h start x :=
      hstep d v hv (hq d (List.mem_cons_self _ _))
    exact ihq (walkStatesInternal h f d v).2 hva
      (fun d2 hd2 => hq d2 (List.mem_cons_of_mem _ hd2)) l hl

theorem walkStates_sound {T : Type} (h : Heap T) (start : Label) :
    ∀ f : Nat, ∀ (src : Label) (v : List Label), (∀ l ∈ v, Reaches h start l) →
      Reaches h start src →
      ∀ l ∈ (walkStatesInternal h f src v).2, Reaches h start l := by
  intro f
  induction f with
  | zero =>
    intro src v hv _ l hl
    exact hv l hl
  | succ f ih =>
    intro src v hv hsrc
    cases hfind : findState h src with
    | none =>
      intro l hl
      have hres : walkStatesInternal h (f+1) src v = ([], v) := by
        rw [walkStatesInternal, hfind]
      rw [hres] at hl
      exact hv l hl
    | some s =>
      intro l hl
      have hres : walkStatesInternal h (f+1) src v
          = ((discover v s.transitions).1
              ++ (walkStatesList (walkStatesInternal h f) (discover v s.transitions).1
                  (discover v s.transitions).2).1,
             (walkStatesList (walkStatesInternal h f) (discover v s.transitions).1
                  (discover v s.transitions).2).2) := by
        rw [walkStatesInternal, hfind]
      obtain ⟨_, _, hmem⟩ := discover_inv s.transitions v
      have hd2 : ∀ x ∈ (discover v s.transitions).2, Reaches h start x := by
        intro x hx
        rcases (hmem x).mp hx with hx1 | hx2
        · have hxd : x ∈ s.transitions.map (fun tr => tr.Dst) :=
            discover_sub s.transitions v x hx1
          have hstepx : stepsTo h src x := by
            unfold stepsTo
            rw [heapSucc_of_find hfind]
            exact hxd
          exact Relation.ReflTransGen.tail hsrc hstepx
        · exact hv x hx2
      have hq : ∀ d2 ∈ (discover v s.transitions).1, Reaches h start d2 := by
        intro d2 hd
        exact hd2 d2 ((hmem d2).mpr (Or.inl hd))
      rw [hres] at hl
      exact walkListSoundAux h start f ih (discover v s.transitions).1
        (discover v s.transitions).2 hd2 hq l hl

theorem WalkStates_mem_of_reaches {T : Type} (h : Heap T) (fuel : Nat) (start l : Label)
    (hreach : Reaches h start l) (hfuel : unseenCount h [start] < fuel) :
    l ∈ WalkStates h fuel start := by
  have hpost := walkStates_post h fuel start [start] hfuel
  obtain ⟨_, _, hmem⟩ := walkStatesInternal_inv h fuel start [start]
  have hstart : start ∈ (walkStatesInternal h fuel start [start]).2 :=
    (hmem start).mpr (Or.inr (List.mem_singleton_self start))
  have hclosed : ∀ x ∈ (walkStatesInternal h fuel start [start]).2,
      ∀ m ∈ heapSucc h x, m ∈ (walkStatesInternal h fuel start [start]).2 := by
    intro x hx m hm
    rcases (hmem x).mp hx with hxseq | hxstart
    · exact hpost.2 x hxseq m hm
    · obtain rfl := List.mem_singleton.mp hxstart
      exact hpost.1 x (List.mem_singleton_self x) m hm
  have hfinal : l ∈ (walkStatesInternal h fuel start [start]).2 := by
    induction hreach with
    | refl => exact hstart
    | tail hab hbc ihab => exact hclosed _ ihab _ hbc
  rcases (hmem l).mp hfinal with h1 | h2
  · exact List.mem_cons_of_mem _ h1
  · obtain rfl := List.mem_singleton.mp h2
    exact List.mem_cons_self _ _

theorem WalkStates_reaches_of_mem {T : Type} (h : Heap T) (fuel : Nat) (start l : Label)
    (hl : l ∈ WalkStates h fuel start) : Reaches h start l := by
  rcases List.mem_cons.mp hl with rfl | hseq
  · exact Relation.ReflTransGen.refl
  · have hv0 : ∀ x ∈ [start], Reaches h start x := by
      intro x hx
      obtain rfl := List.mem_singleton.mp hx
      exact Relation.ReflTransGen.refl
    obtain ⟨_, _, hmem⟩ := walkStatesInternal_inv h fuel start [start]
    exact walkStates_sound h start fuel start [start] hv0 Relation.ReflTransGen.refl l
      ((hmem l).mpr (Or.inl hseq))

/-- C9: the state walk visits each distinct reachable state label exactly
once: on any graph the visit sequence has no duplicate label, with enough
fuel it contains every label reachable from the start, and every label it
contains is reachable from the start; on the fully interconnected family it
is exactly the N distinct states, the start state first. -/
theorem WalkStates_visits_each_reachable_state_once :
    (∀ (T : Type) (h : Heap T) (fuel : Nat) (start : Label),
      (WalkStates h fuel start).Nodup)
    ∧ (∀ (T : Type) (h : Heap T) (fuel : Nat) (start l : Label),
        Reaches h start l → unseenCount h [start] < fuel →
        l ∈ WalkStates h fuel start)
    ∧ (∀ (T : Type) (h : Heap T) (fuel : Nat) (start l : Label),
        l ∈ WalkStates h fuel start → Reaches h start l)
    ∧ ∀ (ls : List Label), ls.Nodup → ∀ start ∈ ls, ∀ fuel : Nat, 2 ≤ fuel →
        WalkStates (hyperHeap ls) fuel start = start :: ls.filter (fun m => m != start)
        ∧ (WalkStates (hyperHeap ls) fuel start).length = ls.length
        ∧ (WalkStates (hyperHeap ls) fuel start).head? = some start
        ∧ ∀ l ∈ ls, l ∈ WalkStates (hyperHeap ls) fuel start := by
  refine ⟨?_, ?_, ?_, ?_⟩
  · intro T h fuel start
    obtain ⟨hn, hfresh, _⟩ := walkStatesInternal_inv h fuel start [start]
    refine List.nodup_cons.mpr ⟨?_, hn⟩
    intro hin
    exact hfresh start hin (List.mem_cons_self _ _)
  · intro T h fuel start l hreach hfuel
    exact WalkStates_mem_of_reaches h fuel start l hreach hfuel
  · intro T h fuel start l hl
    exact WalkStates_reaches_of_mem h fuel start l hl
  · intro ls hnd start hstart fuel hfuel
    obtain ⟨f, rfl⟩ : ∃ f, fuel = f + 2 := ⟨fuel - 2, by omega⟩
    have heq : WalkStates (hyperHeap ls) (f + 2) start
        = start :: ls.filter (fun m => m != start) := by
      unfold WalkStates
      have h2 : f + 2 = (f + 1) + 1 := rfl
      rw [h2, walkStatesInternal, hyper_find hstart]
      have hdsts := hyper_dsts ls start
      have hnd2 : ((hyperState ls start).transitions.map (fun tr => tr.Dst)).Nodup := by
        rw [hdsts]
        exact hnd.filter _
      have hdisj : ∀ d ∈ (hyperState ls start).transitions.map (fun tr => tr.Dst),
          d ∉ [start] := by
        intro d hd
        rw [hdsts] at hd
        have := List.of_mem_filter hd
        simp only [bne_iff_ne, ne_eq, decide_eq_true_eq] at this
        simp [this]
      have hnews : (discover [start] (hyperState ls start).transitions).1
          = ls.filter (fun m => m != start) := by
        rw [discover_all_new _ _ hnd2 hdisj, hdsts]
      have hv1 : ∀ l ∈ ls, l ∈ (discover [start] (hyperState ls start).transitions).2 := by
        intro l hl
        obtain ⟨_, _, hmem⟩ := discover_inv (hyperState ls start).transitions [start]
        rw [hmem l]
        by_cases hls : l = start
        · exact Or.inr (by simp [hls])
        · refine Or.inl ?_
          rw [hnews]
          exact List.mem_filter.mpr ⟨hl, by simp [hls]⟩
      have hstale := hyper_walkStatesList_stale ls (f + 1)
        (discover [start] (hyperState ls start).transitions).1
        (discover [start] (hyperState ls start).transitions).2 hv1
      show start ::
          ((discover [start] (hyperState ls start).transitions).1
            ++ (walkStatesList (walkStatesInternal (hyperHeap ls) (f + 1))
                (discover [start] (hyperState ls start).transitions).1
                (discover [start] (hyperState ls start).transitions).2).1)
        = start :: ls.filter (fun m => m != start)
      rw [hstale, hnews]
      simp
    refine ⟨heq, ?_, ?_, ?_⟩
    · rw [heq]
      simp only [List.length_cons]
      exact length_filter_ne_of_nodup hnd hstart
    · rw [heq]
      rfl
    · intro l hl
      rw [heq]
      by_cases hls : l = start
      · simp [hls]
      · exact List.mem_cons_of_mem _ (List.mem_filter.mpr ⟨hl, by simp [hls]⟩)

theorem WalkStates_visits_each_reachable_state_once_witness :
    WalkStates (hyperHeap ["s1", "s2", "s3"]) 2 "s1" = ["s1", "s2", "s3"]
    ∧ (WalkStates (hyperHeap ["s1", "s2", "s3"]) 2 "s1").length = 3
    ∧ (WalkStates (hyperHeap ["s1", "s2", "s3"]) 2 "s1").head? = some "s1"
    ∧ (∀ l ∈ ["s1", "s2", "s3"], l ∈ WalkStates (hyperHeap ["s1", "s2", "s3"]) 2 "s1")
    ∧ "s3" ∈ WalkStates (hyperHeap ["s1", "s2", "s3"]) 7 "s1"
    ∧ Reaches (hyperHeap ["s1", "s2", "s3"]) "s1" "s2" := by
  have hhyper := WalkStates_visits_each_reachable_state_once.2.2.2
    ["s1", "s2", "s3"] (by decide) "s1" (by decide) 2 (by decide)
  refine ⟨hhyper.1, hhyper.2.1, hhyper.2.2.1, hhyper.2.2.2, ?_, ?_⟩
  · exact WalkStates_visits_each_reachable_state_once.2.1 Unit
      (hyperHeap ["s1", "s2", "s3"]) 7 "s1" "s3"
      (Relation.ReflTransGen.single
        (show ("s3" : Label) ∈ heapSucc (hyperHeap ["s1", "s2", "s3"]) "s1" by decide))
      (by decide)
  · exact WalkStates_visits_each_reachable_state_once.2.2.1 Unit
      (hyperHeap ["s1", "s2", "s3"]) 2 "s1" "s2" (by decide)

end Maquina
